import Mathlib

/-!
Verification development for the Angular template-compiler core of this
repository: the directive-metadata inheritance flattener
(`packages/compiler-cli/src/ngtsc/metadata/src/inheritance.ts`), the
template-AST position resolver (`findNodeAtPosition` and its visitors), and
the i18n `serializeTranslationMessage` wrapper.

Machine integers do not occur: all offsets are natural numbers in the source
(string offsets) and span lengths are modelled as `Int` to mirror JavaScript
number subtraction.
-/

namespace AngularCompiler

/-! ## Directive metadata and the inheritance flattener -/

/-- A reference to a class declaration. The reflection layer is external to
the sources, so class references are modelled as opaque identifiers. -/
abbrev ClassRef := Nat

/-- Modelled from the spec: `ClassPropertyMapping` (`property_mapping.ts` is
not among the sources). Per the data model, an inputs/outputs mapping is "a
mapping from public name to declared property name"; merging is right-biased
("the more-derived declaration's entries take precedence on key collision").
The mapping is kept as an association list whose first entry for a key is
authoritative. -/
structure ClassPropertyMapping where
  entries : List (String × String)
deriving DecidableEq, Repr

/-- Modelled from the spec: an empty property mapping
(`ClassPropertyMapping.empty()` in the source). -/
def ClassPropertyMapping.empty : ClassPropertyMapping := ⟨[]⟩

/-- Look up the declared property name for a public name. -/
def ClassPropertyMapping.lookup (m : ClassPropertyMapping) (k : String) : Option String :=
  List.lookup k m.entries

/-- Modelled from the spec: `ClassPropertyMapping.merge(a, b)`, a right-biased
merge in which `b`'s entries win on key collision. Entries of `a` whose key
also occurs in `b` are dropped; all of `b` is kept. -/
def ClassPropertyMapping.merge (a b : ClassPropertyMapping) : ClassPropertyMapping :=
  ⟨(a.entries.filter fun p => (List.lookup p.1 b.entries).isNone) ++ b.entries⟩

/-- The `baseClass` field of `DirectiveMeta`: `null`, the string sentinel
`'dynamic'`, or a `Reference` to the base class declaration. -/
inductive BaseClass where
  | null
  | dynamic
  | ref (r : ClassRef)
deriving DecidableEq, Repr

/-- The slice of `DirectiveMeta` that `flattenInheritedDirectiveMetadata`
reads and rewrites. `name` stands for the remaining fields that the
`{...topMeta}` spread copies through unchanged. The four classification sets
are JavaScript `Set`s, modelled as `Finset`s (insertion order is not
observable through the claims, which compare sets by their elements). -/
structure DirectiveMeta where
  name : String
  inputs : ClassPropertyMapping
  outputs : ClassPropertyMapping
  coercedInputFields : Finset String
  undeclaredInputFields : Finset String
  restrictedInputFields : Finset String
  stringLiteralInputFields : Finset String
  baseClass : BaseClass
deriving DecidableEq

/-- The metadata reader capability:
`getDirectiveMetadata(classReference) -> DirectiveMeta | null`. -/
abbrev MetadataReader := ClassRef → Option DirectiveMeta

/-- The mutable accumulators of `flattenInheritedDirectiveMetadata`
(`isDynamic`, `inputs`, `outputs` and the four sets). -/
structure FlattenAcc where
  isDynamic : Bool
  inputs : ClassPropertyMapping
  outputs : ClassPropertyMapping
  coercedInputFields : Finset String
  undeclaredInputFields : Finset String
  restrictedInputFields : Finset String
  stringLiteralInputFields : Finset String
deriving DecidableEq

/-- The initial accumulator state of `flattenInheritedDirectiveMetadata`. -/
def FlattenAcc.initial : FlattenAcc :=
  ⟨false, ClassPropertyMapping.empty, ClassPropertyMapping.empty, ∅, ∅, ∅, ∅⟩

/-- The tail of `addMetadata`: merge `meta`'s own inputs/outputs into the
accumulators (the more-derived side is the second, winning argument) and add
its four classification sets. -/
def mergeOwnMetadata (meta : DirectiveMeta) (acc : FlattenAcc) : FlattenAcc :=
  { isDynamic := acc.isDynamic
    inputs := acc.inputs.merge meta.inputs
    outputs := acc.outputs.merge meta.outputs
    coercedInputFields := acc.coercedInputFields ∪ meta.coercedInputFields
    undeclaredInputFields := acc.undeclaredInputFields ∪ meta.undeclaredInputFields
    restrictedInputFields := acc.restrictedInputFields ∪ meta.restrictedInputFields
    stringLiteralInputFields := acc.stringLiteralInputFields ∪ meta.stringLiteralInputFields }

/-- The recursive `addMetadata` closure of `flattenInheritedDirectiveMetadata`.
It first follows the base class (setting `isDynamic` when the base is the
`'dynamic'` sentinel or its metadata is missing, and recursing when the base
metadata is found), then merges `meta`'s own fields. The source recursion is
bounded only by the (contractually finite, acyclic) chain; `fuel` bounds it
here, and `none` marks fuel exhaustion, which cannot occur on a finite chain
with enough fuel. -/
def addMetadata (reader : MetadataReader) (fuel : Nat) (meta : DirectiveMeta)
    (acc : FlattenAcc) : Option FlattenAcc :=
  let afterBase : Option FlattenAcc :=
    match meta.baseClass with
    | .dynamic => some { acc with isDynamic := true }
    | .null => some acc
    | .ref r =>
      match reader r with
      | some baseMeta =>
        match fuel with
        | 0 => none
        | f + 1 => addMetadata reader f baseMeta acc
      | none => some { acc with isDynamic := true }
  match afterBase with
  | none => none
  | some acc2 => some (mergeOwnMetadata meta acc2)

/-- Result of `flattenInheritedDirectiveMetadata`: a metadata record, the
thrown `Error` (with its message), or fuel exhaustion (the source would
instead fail to terminate, which its contract rules out). -/
inductive FlattenResult where
  | ok (meta : DirectiveMeta)
  | err (message : String)
  | outOfFuel
deriving DecidableEq

/-- `flattenInheritedDirectiveMetadata(reader, dir)`: read the directive's own
metadata (throwing when it is missing), return it unchanged when `baseClass`
is null, and otherwise run `addMetadata` over the chain and rebuild the record
with the accumulated fields and `baseClass` set to `'dynamic'` or null. -/
def flattenInheritedDirectiveMetadata (reader : MetadataReader) (dir : ClassRef)
    (fuel : Nat) : FlattenResult :=
  match reader dir with
  | none => .err ("Metadata not found for directive: " ++ toString dir)
  | some topMeta =>
    if topMeta.baseClass = .null then
      .ok topMeta
    else
      match addMetadata reader fuel topMeta FlattenAcc.initial with
      | none => .outOfFuel
      | some acc =>
        .ok { topMeta with
              inputs := acc.inputs
              outputs := acc.outputs
              coercedInputFields := acc.coercedInputFields
              undeclaredInputFields := acc.undeclaredInputFields
              restrictedInputFields := acc.restrictedInputFields
              stringLiteralInputFields := acc.stringLiteralInputFields
              baseClass := if acc.isDynamic then .dynamic else .null }

/-! ### Inheritance chains and merge lemmas -/

/-- The condition under which `addMetadata` does not recurse further: the
record's base class is null, `'dynamic'`, or a reference the reader cannot
resolve. -/
def stopsAt (reader : MetadataReader) (m : DirectiveMeta) : Prop :=
  match m.baseClass with
  | .ref r => reader r = none
  | _ => True

/-- Whether the terminal record of a chain marks the whole chain dynamic:
its base class is the `'dynamic'` sentinel or an unresolvable reference. -/
def chainBroken (reader : MetadataReader) (m : DirectiveMeta) : Bool :=
  match m.baseClass with
  | .dynamic => true
  | .null => false
  | .ref r => (reader r).isNone

/-- `Chain reader m ms`: `ms` is the exact sequence of metadata records that
`addMetadata` visits starting at `m` (derived-most first), ending at the
first record whose base class no longer resolves to further metadata. -/
inductive Chain (reader : MetadataReader) : DirectiveMeta → List DirectiveMeta → Prop where
  | stop (m : DirectiveMeta) (h : stopsAt reader m) : Chain reader m [m]
  | step (m b : DirectiveMeta) (r : ClassRef) (ms : List DirectiveMeta)
      (h1 : m.baseClass = .ref r) (h2 : reader r = some b)
      (hc : Chain reader b ms) : Chain reader m (m :: ms)

/-- The first mapping entry for a key along a chain, derived-most level
first: the entry the more-derived declaration contributes wins. -/
def chainLookup (f : DirectiveMeta → ClassPropertyMapping)
    (ms : List DirectiveMeta) (k : String) : Option String :=
  ms.findSome? fun d => (f d).lookup k

/-- The union of one classification set across all levels of a chain. -/
def chainUnion (f : DirectiveMeta → Finset String) : List DirectiveMeta → Finset String
  | [] => ∅
  | d :: rest => f d ∪ chainUnion f rest

theorem chain_ne_nil {reader : MetadataReader} {m : DirectiveMeta}
    {ms : List DirectiveMeta} (hc : Chain reader m ms) : ms ≠ [] := by
  cases hc <;> simp

theorem chain_of_baseClass_null {reader : MetadataReader} {m : DirectiveMeta}
    {ms : List DirectiveMeta} (hc : Chain reader m ms) (h : m.baseClass = .null) :
    ms = [m] := by
  cases hc with
  | stop => rfl
  | step _ _ r _ h1 => rw [h] at h1; exact absurd h1 (by simp)

theorem mem_chainUnion {f : DirectiveMeta → Finset String}
    {ms : List DirectiveMeta} {x : String} :
    x ∈ chainUnion f ms ↔ ∃ d ∈ ms, x ∈ f d := by
  induction ms with
  | nil => simp [chainUnion]
  | cons d rest ih => simp [chainUnion, ih]

theorem lookup_filter_drop (b : List (String × String)) (k v : String)
    (hb : List.lookup k b = some v) (a : List (String × String)) :
    List.lookup k (a.filter fun p => (List.lookup p.1 b).isNone) = none := by
  induction a with
  | nil => simp
  | cons p t ih =>
    obtain ⟨p1, p2⟩ := p
    by_cases hkeep : ((List.lookup p1 b).isNone : Bool) = true
    · have hne : (k == p1) = false := by
        apply beq_false_of_ne
        intro he
        rw [← he, hb] at hkeep
        simp at hkeep
      simp [List.filter_cons, hkeep, List.lookup, hne, ih]
    · have hkeep' : ((List.lookup p1 b).isNone : Bool) = false := by simpa using hkeep
      simp [List.filter_cons, hkeep', ih]

theorem lookup_filter_keep (b : List (String × String)) (k : String)
    (hb : List.lookup k b = none) (a : List (String × String)) :
    List.lookup k (a.filter fun p => (List.lookup p.1 b).isNone) = List.lookup k a := by
  induction a with
  | nil => simp
  | cons p t ih =>
    obtain ⟨p1, p2⟩ := p
    by_cases hk : (k == p1) = true
    · have hpk : p1 = k := ((beq_iff_eq ..).mp hk).symm
      subst hpk
      simp [List.filter_cons, hb, List.lookup, hk]
    · have hk' : (k == p1) = false := by simpa using hk
      by_cases hkeep : ((List.lookup p1 b).isNone : Bool) = true
      · simp [List.filter_cons, hkeep, List.lookup, hk', ih]
      · have hkeep' : ((List.lookup p1 b).isNone : Bool) = false := by simpa using hkeep
        simp [List.filter_cons, hkeep', List.lookup, hk', ih]

/-- Lookup through a right-biased merge: the second (more derived) mapping's
entry wins, falling back to the first. -/
theorem lookup_merge (a b : ClassPropertyMapping) (k : String) :
    (a.merge b).lookup k = (b.lookup k).or (a.lookup k) := by
  unfold ClassPropertyMapping.merge ClassPropertyMapping.lookup
  rw [List.lookup_append]
  cases hb : List.lookup k b.entries with
  | some v => rw [lookup_filter_drop b.entries k v hb a.entries]; rfl
  | none => rw [lookup_filter_keep b.entries k hb a.entries]; exact Option.or_none

theorem merge_empty_left (m : ClassPropertyMapping) :
    ClassPropertyMapping.empty.merge m = m := rfl

theorem chainLookup_cons (f : DirectiveMeta → ClassPropertyMapping)
    (d : DirectiveMeta) (ms : List DirectiveMeta) (k : String) :
    chainLookup f (d :: ms) k = ((f d).lookup k).or (chainLookup f ms k) := by
  cases h : (f d).lookup k <;> simp [chainLookup, List.findSome?_cons, h, Option.or]

/-- What `addMetadata` computes over a full chain: it succeeds given enough
fuel, `isDynamic` records exactly whether the terminal record leaves the
chain unresolved, mapping lookups prefer the more-derived levels, and each
classification set accumulates the union over all levels. -/
theorem addMetadata_chain {reader : MetadataReader} {m : DirectiveMeta}
    {ms : List DirectiveMeta} (hc : Chain reader m ms) :
    ∀ (fuel : Nat) (acc : FlattenAcc), ms.length ≤ fuel + 1 →
    ∃ acc' mlast, ms.getLast? = some mlast ∧
      addMetadata reader fuel m acc = some acc' ∧
      acc'.isDynamic = (acc.isDynamic || chainBroken reader mlast) ∧
      (∀ k, acc'.inputs.lookup k =
        (chainLookup (fun d => d.inputs) ms k).or (acc.inputs.lookup k)) ∧
      (∀ k, acc'.outputs.lookup k =
        (chainLookup (fun d => d.outputs) ms k).or (acc.outputs.lookup k)) ∧
      acc'.coercedInputFields =
        acc.coercedInputFields ∪ chainUnion (fun d => d.coercedInputFields) ms ∧
      acc'.undeclaredInputFields =
        acc.undeclaredInputFields ∪ chainUnion (fun d => d.undeclaredInputFields) ms ∧
      acc'.restrictedInputFields =
        acc.restrictedInputFields ∪ chainUnion (fun d => d.restrictedInputFields) ms ∧
      acc'.stringLiteralInputFields =
        acc.stringLiteralInputFields ∪ chainUnion (fun d => d.stringLiteralInputFields) ms := by
  induction hc with
  | stop m h =>
    intro fuel acc _
    rcases hb : m.baseClass with _ | _ | r
    · refine ⟨mergeOwnMetadata m acc, m, rfl, by simp [addMetadata, hb], ?_, ?_, ?_, ?_, ?_, ?_, ?_⟩
      · simp [mergeOwnMetadata, chainBroken, hb]
      · intro k
        cases hk : m.inputs.lookup k <;>
          simp [mergeOwnMetadata, lookup_merge, chainLookup, List.findSome?_cons, hk, Option.or]
      · intro k
        cases hk : m.outputs.lookup k <;>
          simp [mergeOwnMetadata, lookup_merge, chainLookup, List.findSome?_cons, hk, Option.or]
      all_goals simp [mergeOwnMetadata, chainUnion]
    · refine ⟨mergeOwnMetadata m { acc with isDynamic := true }, m, rfl,
        by simp [addMetadata, hb], ?_, ?_, ?_, ?_, ?_, ?_, ?_⟩
      · simp [mergeOwnMetadata, chainBroken, hb]
      · intro k
        cases hk : m.inputs.lookup k <;>
          simp [mergeOwnMetadata, lookup_merge, chainLookup, List.findSome?_cons, hk, Option.or]
      · intro k
        cases hk : m.outputs.lookup k <;>
          simp [mergeOwnMetadata, lookup_merge, chainLookup, List.findSome?_cons, hk, Option.or]
      all_goals simp [mergeOwnMetadata, chainUnion]
    · have hr : reader r = none := by
        have h' := h
        rw [stopsAt, hb] at h'
        exact h'
      refine ⟨mergeOwnMetadata m { acc with isDynamic := true }, m, rfl,
        by simp [addMetadata, hb, hr], ?_, ?_, ?_, ?_, ?_, ?_, ?_⟩
      · simp [mergeOwnMetadata, chainBroken, hb, hr]
      · intro k
        cases hk : m.inputs.lookup k <;>
          simp [mergeOwnMetadata, lookup_merge, chainLookup, List.findSome?_cons, hk, Option.or]
      · intro k
        cases hk : m.outputs.lookup k <;>
          simp [mergeOwnMetadata, lookup_merge, chainLookup, List.findSome?_cons, hk, Option.or]
      all_goals simp [mergeOwnMetadata, chainUnion]
  | step m b r ms h1 h2 hcb ih =>
    intro fuel acc hlen
    have hne : ms ≠ [] := chain_ne_nil hcb
    have hpos : 0 < ms.length := List.length_pos.mpr hne
    simp only [List.length_cons] at hlen
    obtain ⟨f, rfl⟩ : ∃ f, fuel = f + 1 := ⟨fuel - 1, by omega⟩
    obtain ⟨acc', mlast, hlast, hadd, hdyn, hin, hout, hco, hun, hre, hst⟩ :=
      ih f acc (by omega)
    refine ⟨mergeOwnMetadata m acc', mlast, ?_, ?_, ?_, ?_, ?_, ?_, ?_, ?_, ?_⟩
    · cases ms with
      | nil => exact absurd rfl hne
      | cons b' t => rw [List.getLast?_cons_cons]; exact hlast
    · simp [addMetadata, h1, h2, hadd]
    · simp [mergeOwnMetadata, hdyn]
    · intro k
      simp only [mergeOwnMetadata, lookup_merge, hin k, chainLookup_cons, Option.or_assoc]
    · intro k
      simp only [mergeOwnMetadata, lookup_merge, hout k, chainLookup_cons, Option.or_assoc]
    · simp only [mergeOwnMetadata, hco, chainUnion]
      rw [Finset.union_assoc, Finset.union_comm (chainUnion (fun d => d.coercedInputFields) ms)]
    · simp only [mergeOwnMetadata, hun, chainUnion]
      rw [Finset.union_assoc, Finset.union_comm (chainUnion (fun d => d.undeclaredInputFields) ms)]
    · simp only [mergeOwnMetadata, hre, chainUnion]
      rw [Finset.union_assoc, Finset.union_comm (chainUnion (fun d => d.restrictedInputFields) ms)]
    · simp only [mergeOwnMetadata, hst, chainUnion]
      rw [Finset.union_assoc, Finset.union_comm (chainUnion (fun d => d.stringLiteralInputFields) ms)]

/-- Every successful flattening result carries `baseClass` null or
`'dynamic'`. -/
theorem flatten_ok_baseClass {reader : MetadataReader} {dir : ClassRef}
    {fuel : Nat} {m : DirectiveMeta}
    (h : flattenInheritedDirectiveMetadata reader dir fuel = .ok m) :
    m.baseClass = .null ∨ m.baseClass = .dynamic := by
  cases hr : reader dir with
  | none => simp only [flattenInheritedDirectiveMetadata, hr] at h; simp at h
  | some topMeta =>
    simp only [flattenInheritedDirectiveMetadata, hr] at h
    by_cases hb : topMeta.baseClass = .null
    · rw [if_pos hb] at h
      injection h with h
      rw [← h]
      exact .inl hb
    · rw [if_neg hb] at h
      cases hadd : addMetadata reader fuel topMeta FlattenAcc.initial with
      | none => rw [hadd] at h; simp at h
      | some acc =>
        rw [hadd] at h
        injection h with h
        rw [← h]
        cases hd : acc.isDynamic <;> simp [hd]

/-! ### Claim theorems for the flattener -/

/-- C3: for every directive whose declared metadata has `baseClass` null,
`flattenInheritedDirectiveMetadata` returns that metadata unchanged,
performing no merge at all. -/
theorem flatten_noop_of_baseClass_null :
    ∀ (reader : MetadataReader) (dir : ClassRef) (fuel : Nat) (m : DirectiveMeta),
      reader dir = some m → m.baseClass = .null →
      flattenInheritedDirectiveMetadata reader dir fuel = .ok m := by
  intro reader dir fuel m h1 h2
  simp [flattenInheritedDirectiveMetadata, h1, h2]

/-- C2: flattening is idempotent on its own output. If `m` is the result of
a flattening (so its `baseClass` is null or `'dynamic'`) and a reader reports
`m` as a directive's own metadata, flattening that directive returns `m`
itself, structurally unchanged. -/
theorem flatten_idempotent_on_flattened_output :
    ∀ (reader : MetadataReader) (dir : ClassRef) (fuel : Nat)
      (reader2 : MetadataReader) (dir2 : ClassRef) (fuel2 : Nat) (m : DirectiveMeta),
      flattenInheritedDirectiveMetadata reader dir fuel = .ok m →
      reader2 dir2 = some m →
      flattenInheritedDirectiveMetadata reader2 dir2 fuel2 = .ok m := by
  intro reader dir fuel reader2 dir2 fuel2 m h1 h2
  rcases flatten_ok_baseClass h1 with hb | hb
  · simp [flattenInheritedDirectiveMetadata, h2, hb]
  · simp only [flattenInheritedDirectiveMetadata, h2]
    rw [if_neg (by simp [hb])]
    rw [show addMetadata reader2 fuel2 m FlattenAcc.initial =
          some (mergeOwnMetadata m { FlattenAcc.initial with isDynamic := true }) from by
        simp [addMetadata, hb]]
    cases m with
    | mk nm ins outs co un re st bc =>
      simp only at hb
      subst hb
      simp [mergeOwnMetadata, FlattenAcc.initial, merge_empty_left]

/-- C9: flattening reports the thrown `Error` exactly when the reader has no
metadata for the queried directive itself; missing metadata for a base class
is never reported as an error (it is absorbed as `'dynamic'` instead). -/
theorem flatten_err_iff_missing_own_metadata :
    ∀ (reader : MetadataReader) (dir : ClassRef) (fuel : Nat),
      (∃ s, flattenInheritedDirectiveMetadata reader dir fuel = .err s) ↔
        reader dir = none := by
  intro reader dir fuel
  constructor
  · rintro ⟨s, hs⟩
    cases hr : reader dir with
    | none => rfl
    | some topMeta =>
      simp only [flattenInheritedDirectiveMetadata, hr] at hs
      by_cases hb : topMeta.baseClass = .null
      · rw [if_pos hb] at hs; simp at hs
      · rw [if_neg hb] at hs
        cases hadd : addMetadata reader fuel topMeta FlattenAcc.initial <;>
          rw [hadd] at hs <;> simp at hs
  · intro hr
    exact ⟨"Metadata not found for directive: " ++ toString dir,
      by simp [flattenInheritedDirectiveMetadata, hr]⟩

/-- C4: whenever the base-class walk ends at a record whose own base class is
the `'dynamic'` sentinel or a reference the reader cannot resolve (for
example a 3-level chain whose middle class's metadata is unavailable), the
flattened result has `baseClass = 'dynamic'`. -/
theorem flatten_broken_chain_dynamic :
    ∀ (reader : MetadataReader) (dir : ClassRef) (fuel : Nat)
      (topMeta mlast : DirectiveMeta) (ms : List DirectiveMeta),
      reader dir = some topMeta → Chain reader topMeta ms →
      ms.getLast? = some mlast → chainBroken reader mlast = true →
      ms.length ≤ fuel + 1 →
      ∃ res, flattenInheritedDirectiveMetadata reader dir fuel = .ok res ∧
        res.baseClass = .dynamic := by
  intro reader dir fuel topMeta mlast ms hr hc hlast hbroken hlen
  by_cases hb : topMeta.baseClass = .null
  · have hms := chain_of_baseClass_null hc hb
    subst hms
    simp only [List.getLast?_singleton, Option.some.injEq] at hlast
    subst hlast
    simp [chainBroken, hb] at hbroken
  · obtain ⟨acc', mlast', hlast', hadd, hdyn, _⟩ := addMetadata_chain hc fuel FlattenAcc.initial hlen
    rw [hlast] at hlast'
    injection hlast' with hlast'
    subst hlast'
    refine ⟨{ topMeta with
        inputs := acc'.inputs
        outputs := acc'.outputs
        coercedInputFields := acc'.coercedInputFields
        undeclaredInputFields := acc'.undeclaredInputFields
        restrictedInputFields := acc'.restrictedInputFields
        stringLiteralInputFields := acc'.stringLiteralInputFields
        baseClass := if acc'.isDynamic then .dynamic else .null }, ?_, ?_⟩
    · simp only [flattenInheritedDirectiveMetadata, hr]
      rw [if_neg hb, hadd]
    · rw [hdyn, hbroken]
      simp [FlattenAcc.initial]

/-- C5: for every fully resolvable inheritance chain the flattened inputs
and outputs behave as the right-biased merge of all levels (on key collision
the more-derived level's entry wins), and each of the four classification
sets is the union of that set across all levels. -/
theorem flatten_resolvable_chain_merge :
    ∀ (reader : MetadataReader) (dir : ClassRef) (fuel : Nat)
      (topMeta mlast : DirectiveMeta) (ms : List DirectiveMeta),
      reader dir = some topMeta → Chain reader topMeta ms →
      ms.getLast? = some mlast → mlast.baseClass = .null →
      ms.length ≤ fuel + 1 →
      ∃ res, flattenInheritedDirectiveMetadata reader dir fuel = .ok res ∧
        (∀ k, res.inputs.lookup k = chainLookup (fun d => d.inputs) ms k) ∧
        (∀ k, res.outputs.lookup k = chainLookup (fun d => d.outputs) ms k) ∧
        (∀ x, x ∈ res.coercedInputFields ↔ ∃ d ∈ ms, x ∈ d.coercedInputFields) ∧
        (∀ x, x ∈ res.undeclaredInputFields ↔ ∃ d ∈ ms, x ∈ d.undeclaredInputFields) ∧
        (∀ x, x ∈ res.restrictedInputFields ↔ ∃ d ∈ ms, x ∈ d.restrictedInputFields) ∧
        (∀ x, x ∈ res.stringLiteralInputFields ↔ ∃ d ∈ ms, x ∈ d.stringLiteralInputFields) := by
  intro reader dir fuel topMeta mlast ms hr hc hlast hnull hlen
  by_cases hb : topMeta.baseClass = .null
  · have hms := chain_of_baseClass_null hc hb
    subst hms
    refine ⟨topMeta, by simp [flattenInheritedDirectiveMetadata, hr, hb], ?_, ?_, ?_, ?_, ?_, ?_⟩
    · intro k
      cases hk : topMeta.inputs.lookup k <;>
        simp [chainLookup, List.findSome?_cons, hk]
    · intro k
      cases hk : topMeta.outputs.lookup k <;>
        simp [chainLookup, List.findSome?_cons, hk]
    all_goals intro x; simp
  · obtain ⟨acc', mlast', hlast', hadd, hdyn, hin, hout, hco, hun, hre, hst⟩ :=
      addMetadata_chain hc fuel FlattenAcc.initial hlen
    refine ⟨{ topMeta with
        inputs := acc'.inputs
        outputs := acc'.outputs
        coercedInputFields := acc'.coercedInputFields
        undeclaredInputFields := acc'.undeclaredInputFields
        restrictedInputFields := acc'.restrictedInputFields
        stringLiteralInputFields := acc'.stringLiteralInputFields
        baseClass := if acc'.isDynamic then .dynamic else .null }, ?_, ?_, ?_, ?_, ?_, ?_, ?_⟩
    · simp only [flattenInheritedDirectiveMetadata, hr]
      rw [if_neg hb, hadd]
    · intro k
      have := hin k
      simp only [FlattenAcc.initial, ClassPropertyMapping.empty, ClassPropertyMapping.lookup,
        List.lookup_nil, Option.or_none] at this
      exact this
    · intro k
      have := hout k
      simp only [FlattenAcc.initial, ClassPropertyMapping.empty, ClassPropertyMapping.lookup,
        List.lookup_nil, Option.or_none] at this
      exact this
    · intro x
      simp only [hco, FlattenAcc.initial, Finset.empty_union]
      exact mem_chainUnion
    · intro x
      simp only [hun, FlattenAcc.initial, Finset.empty_union]
      exact mem_chainUnion
    · intro x
      simp only [hre, FlattenAcc.initial, Finset.empty_union]
      exact mem_chainUnion
    · intro x
      simp only [hst, FlattenAcc.initial, Finset.empty_union]
      exact mem_chainUnion

/-! ### Concrete sample data for the flattener witnesses -/

/-- A base directive with `baseClass: null`. -/
def metaBaseA : DirectiveMeta :=
  ⟨"A", ⟨[("x", "baseX"), ("y", "baseY")]⟩, ⟨[("out", "baseOut")]⟩,
    {"ca"}, {"ua"}, {"ra"}, {"sa"}, .null⟩

/-- A derived directive extending class 1. -/
def metaDerivedD : DirectiveMeta :=
  ⟨"D", ⟨[("x", "derivedX")]⟩, ⟨[]⟩, {"cd"}, ∅, ∅, ∅, .ref 1⟩

/-- A record shaped like flattening output marked `'dynamic'`. -/
def metaDynamicM : DirectiveMeta :=
  ⟨"M", ⟨[("a", "pa")]⟩, ⟨[]⟩, {"c"}, ∅, ∅, ∅, .dynamic⟩

/-- Bottom of a 3-level chain `C extends B extends A`, where `B` is class 1. -/
def metaBottomC : DirectiveMeta :=
  ⟨"C", ⟨[("z", "cz")]⟩, ⟨[]⟩, ∅, ∅, ∅, ∅, .ref 1⟩

/-- Reader for the resolvable 2-level chain: class 0 is `D`, class 1 is `A`. -/
def readerResolvable : MetadataReader := fun r =>
  if r = 0 then some metaDerivedD else if r = 1 then some metaBaseA else none

/-- Reader exposing only the already-`'dynamic'` record `M` as class 0. -/
def readerDynamicOnly : MetadataReader := fun r =>
  if r = 0 then some metaDynamicM else none

/-- Reader for the 3-level chain `C (class 0) extends B (class 1) extends
A (class 2)` in which the middle class `B` has no metadata while both `C` and
`A` resolve. -/
def readerMissingMiddle : MetadataReader := fun r =>
  if r = 0 then some metaBottomC else if r = 2 then some metaBaseA else none

/-- Witness for C3: flattening class 1 (base `A`, `baseClass` null) under the
sample reader is a structural no-op. -/
theorem flatten_noop_of_baseClass_null_witness :
    flattenInheritedDirectiveMetadata readerResolvable 1 3 = .ok metaBaseA :=
  flatten_noop_of_baseClass_null readerResolvable 1 3 metaBaseA (by decide) (by decide)

/-- Witness for C2: `M` is itself a flattening output (of class 0 under
`readerDynamicOnly`), and re-flattening it returns it unchanged. -/
theorem flatten_idempotent_witness :
    flattenInheritedDirectiveMetadata readerDynamicOnly 0 4 = .ok metaDynamicM :=
  flatten_idempotent_on_flattened_output readerDynamicOnly 0 2 readerDynamicOnly 0 4
    metaDynamicM (by decide) (by decide)

/-- Witness for C4 at the 3-level chain with the middle metadata missing:
the result is marked `'dynamic'`. -/
theorem flatten_broken_chain_witness :
    ∃ res, flattenInheritedDirectiveMetadata readerMissingMiddle 0 3 = .ok res ∧
      res.baseClass = .dynamic :=
  flatten_broken_chain_dynamic readerMissingMiddle 0 3 metaBottomC metaBottomC [metaBottomC]
    (by decide) (Chain.stop _ (by simp [stopsAt, metaBottomC, readerMissingMiddle]))
    rfl (by decide) (by decide)

/-- Witness for C5 at the 2-level chain `D extends A`: the derived entry wins
on the colliding key, the base-only key survives, and the classification sets
are unions. -/
theorem flatten_resolvable_chain_witness :
    ∃ res, flattenInheritedDirectiveMetadata readerResolvable 0 3 = .ok res ∧
      res.inputs.lookup "x" = some "derivedX" ∧
      res.inputs.lookup "y" = some "baseY" ∧
      "ca" ∈ res.coercedInputFields ∧ "cd" ∈ res.coercedInputFields := by
  obtain ⟨res, hok, hin, _, hco, _⟩ :=
    flatten_resolvable_chain_merge readerResolvable 0 3 metaDerivedD metaBaseA
      [metaDerivedD, metaBaseA] (by decide)
      (Chain.step _ _ 1 _ (by decide) (by decide)
        (Chain.stop _ (by simp [stopsAt, metaBaseA])))
      rfl (by decide) (by decide)
  refine ⟨res, hok, ?_, ?_, ?_, ?_⟩
  · rw [hin "x"]; decide
  · rw [hin "y"]; decide
  · exact (hco "ca").mpr ⟨metaBaseA, by simp, by decide⟩
  · exact (hco "cd").mpr ⟨metaDerivedD, by simp, by decide⟩

/-! ## Template AST and the position resolver -/

/-- A location inside a `ParseSourceSpan`; only its offset is read. -/
structure ParseLocation where
  offset : Nat
deriving DecidableEq, Repr

/-- The span type carried by template AST nodes. -/
structure ParseSourceSpan where
  start : ParseLocation
  «end» : ParseLocation
deriving DecidableEq, Repr

/-- The span type carried by expression AST nodes: plain absolute offsets. -/
structure AbsoluteSourceSpan where
  start : Nat
  «end» : Nat
deriving DecidableEq, Repr

/-- The argument type of `isWithin`, which accepts either span shape and
destructures it accordingly. -/
inductive SomeSpan where
  | parse (s : ParseSourceSpan)
  | absolute (s : AbsoluteSourceSpan)
deriving DecidableEq, Repr

/-- `isWithin(position, span)`: containment with both boundaries inclusive
("both start and end are inclusive" in the source). -/
def isWithin (position : Nat) (span : SomeSpan) : Bool :=
  let bounds :=
    match span with
    | .parse s => (s.start.offset, s.«end».offset)
    | .absolute s => (s.start, s.«end»)
  decide (bounds.1 ≤ position ∧ position ≤ bounds.2)

/-- A span length as the JavaScript subtraction `end - start`. -/
def spanLength (s : AbsoluteSourceSpan) : Int :=
  (s.«end» : Int) - (s.start : Int)

/-- Modelled from the spec: the expression AST (`e.AST` of
`@angular/compiler` is not among the sources). Every node carries an
absolute source span; `astWithSource` wraps an underlying node;
`implicitReceiver` is the synthetic receiver the traversal must never
return; the remaining recursive shapes are collapsed into `node` with the
ordered child list that `RecursiveAstVisitor` traverses. -/
inductive EAst where
  | implicitReceiver (sourceSpan : AbsoluteSourceSpan)
  | astWithSource (sourceSpan : AbsoluteSourceSpan) (ast : EAst)
  | node (sourceSpan : AbsoluteSourceSpan) (children : List EAst)

/-- The `sourceSpan` field shared by all expression nodes. -/
def EAst.sourceSpan : EAst → AbsoluteSourceSpan
  | .implicitReceiver s => s
  | .astWithSource s _ => s
  | .node s _ => s

/-- The template AST (`t.Node` of `@angular/compiler`; the node shapes are
modelled from the spec's data model, keeping exactly what the resolver
reads: a source span on every node, the optional end-tag span of elements
and templates, key/value sub-spans of attribute-shaped nodes, the names the
two-way-binding check compares, and the child lists each visit method
traverses in order). -/
inductive TNode where
  | element (name : String) (attributes inputs outputs references children : List TNode)
      (sourceSpan : ParseSourceSpan) (endSourceSpan : Option ParseSourceSpan)
  | template (tagName : String)
      (attributes inputs outputs templateAttrs references «variables» children : List TNode)
      (sourceSpan : ParseSourceSpan) (endSourceSpan : Option ParseSourceSpan)
  | content (attributes : List TNode) (sourceSpan : ParseSourceSpan)
  | «variable» (name value : String) (sourceSpan keySpan : ParseSourceSpan)
      (valueSpan : Option ParseSourceSpan)
  | reference (name value : String) (sourceSpan keySpan : ParseSourceSpan)
      (valueSpan : Option ParseSourceSpan)
  | textAttribute (name value : String) (sourceSpan keySpan : ParseSourceSpan)
      (valueSpan : Option ParseSourceSpan)
  | boundAttribute (name : String) (value : EAst) (sourceSpan keySpan : ParseSourceSpan)
      (valueSpan : Option ParseSourceSpan)
  | boundEvent (name : String) (handler : EAst) (sourceSpan keySpan : ParseSourceSpan)
      (valueSpan : Option ParseSourceSpan)
  | text (value : String) (sourceSpan : ParseSourceSpan)
  | boundText (value : EAst) (sourceSpan : ParseSourceSpan)
  | icu (vars placeholders : List TNode) (sourceSpan : ParseSourceSpan)

/-- The `sourceSpan` field shared by all template nodes. -/
def TNode.sourceSpan : TNode → ParseSourceSpan
  | .element _ _ _ _ _ _ ss _ => ss
  | .template _ _ _ _ _ _ _ _ ss _ => ss
  | .content _ ss => ss
  | .«variable» _ _ ss _ _ => ss
  | .reference _ _ ss _ _ => ss
  | .textAttribute _ _ ss _ _ => ss
  | .boundAttribute _ _ ss _ _ => ss
  | .boundEvent _ _ ss _ _ => ss
  | .text _ ss => ss
  | .boundText _ ss => ss
  | .icu _ _ ss => ss

/-- The `endSourceSpan` of elements and templates; no other kind has one. -/
def TNode.endSourceSpan : TNode → Option ParseSourceSpan
  | .element _ _ _ _ _ _ _ es => es
  | .template _ _ _ _ _ _ _ _ _ es => es
  | _ => none

/-- The key sub-span of key/value-shaped nodes (variables, references and
the three attribute kinds); `none` for every other kind. -/
def TNode.keySpan : TNode → Option ParseSourceSpan
  | .«variable» _ _ _ ks _ => some ks
  | .reference _ _ _ ks _ => some ks
  | .textAttribute _ _ _ ks _ => some ks
  | .boundAttribute _ _ _ ks _ => some ks
  | .boundEvent _ _ _ ks _ => some ks
  | _ => none

/-- The optional value sub-span of key/value-shaped nodes. -/
def TNode.valueSpan : TNode → Option ParseSourceSpan
  | .«variable» _ _ _ _ vs => vs
  | .reference _ _ _ _ vs => vs
  | .textAttribute _ _ _ _ vs => vs
  | .boundAttribute _ _ _ _ vs => vs
  | .boundEvent _ _ _ _ vs => vs
  | _ => none

/-- A `ParseSourceSpan` as plain offsets. -/
def toAbsolute (s : ParseSourceSpan) : AbsoluteSourceSpan :=
  ⟨s.start.offset, s.«end».offset⟩

/-- `getSpanIncludingEndTag`: a node's source-span offsets, except that for
an `Element` or `Template` carrying an `endSourceSpan` the end is moved to
the end of the closing tag. -/
def getSpanIncludingEndTag (ast : TNode) : AbsoluteSourceSpan :=
  let result := toAbsolute ast.sourceSpan
  match ast.endSourceSpan with
  | some es => { result with «end» := es.«end».offset }
  | none => result

/-- An entry of the visitor's `path`: a template node or an expression
node. -/
inductive PathElem where
  | tnode (n : TNode)
  | east (e : EAst)

/-- Modelled from the spec: `isTemplateNode` from `utils` (not among the
sources) — whether a path entry is a template-AST node. -/
def PathElem.isTemplateNode : PathElem → Bool
  | .tnode _ => true
  | .east _ => false

/-- The span the resolver measures the previous match by:
`isTemplateNode(last) ? getSpanIncludingEndTag(last) : last.sourceSpan`. -/
def PathElem.lastSpan : PathElem → AbsoluteSourceSpan
  | .tnode n => getSpanIncludingEndTag n
  | .east e => e.sourceSpan

/-- Modelled from the spec: `isTemplateNodeWithKeyAndValue` from `utils`
(not among the sources) — a template node shaped with key/value
sub-spans. -/
def PathElem.isTemplateNodeWithKeyAndValue : PathElem → Bool
  | .tnode n => n.keySpan.isSome
  | .east _ => false

/-- The two-way-binding test of `visitBoundEvent`: some `BoundAttribute` on
the path has name `n` with the event named `n + 'Change'`. -/
def isTwoWayBindingEvent (eventName : String) (path : List PathElem) : Bool :=
  path.any fun p =>
    match p with
    | .tnode (.boundAttribute n _ _ _ _) => eventName == n ++ "Change"
    | _ => false

mutual

/-- `R3Visitor.visit`: if the node's span (including any end tag) contains
the position, and its length is not strictly greater than the length of the
span of the last node already on the path, push the node and dispatch to its
kind's visit method; otherwise leave the path unchanged. -/
def visit (position : Nat) (node : TNode) (path : List PathElem) : List PathElem :=
  let sp := getSpanIncludingEndTag node
  if isWithin position (.absolute sp) then
    let skip : Bool :=
      match path.getLast? with
      | some last => decide (spanLength sp > spanLength last.lastSpan)
      | none => false
    if skip then path
    else visitNode position node (path ++ [.tnode node])
  else path
termination_by 2 * sizeOf node + 1

/-- The per-kind visit methods of `R3Visitor`, run after the node has been
pushed (`path` already ends with the node itself). -/
def visitNode (position : Nat) (node : TNode) (path : List PathElem) : List PathElem :=
  match node with
  | .element _ attributes inputs outputs references children _ _ =>
    let p1 := visitAll position attributes path
    let p2 := visitAll position inputs p1
    let p3 := visitAll position outputs p2
    let p4 := visitAll position references p3
    visitAll position children p4
  | .template _ attributes inputs outputs templateAttrs references vars children _ _ =>
    let p1 := visitAll position attributes path
    let p2 := visitAll position inputs p1
    let p3 := visitAll position outputs p2
    let p4 := visitAll position templateAttrs p3
    let p5 := visitAll position references p4
    let p6 := visitAll position vars p5
    visitAll position children p6
  | .content attributes _ => visitAll position attributes path
  | .«variable» _ _ _ _ _ => path
  | .reference _ _ _ _ _ => path
  | .textAttribute _ _ _ _ _ => path
  | .boundAttribute _ value _ _ _ => visitExpression position value path
  | .boundEvent name handler _ _ _ =>
    if isTwoWayBindingEvent name path then path.dropLast
    else visitExpression position handler path
  | .text _ _ => path
  | .boundText value _ => visitExpression position value path
  | .icu vars placeholders _ =>
    visitAll position placeholders (visitAll position vars path)
termination_by 2 * sizeOf node

/-- `R3Visitor.visitAll`: visit the nodes in order, threading the path. -/
def visitAll (position : Nat) (nodes : List TNode) (path : List PathElem) : List PathElem :=
  match nodes with
  | [] => path
  | n :: rest => visitAll position rest (visit position n path)
termination_by 2 * sizeOf nodes

/-- `ExpressionVisitor.visit`: unwrap one `ASTWithSource` layer, then guard
and descend. -/
def visitExpression (position : Nat) (e : EAst) (path : List PathElem) : List PathElem :=
  match e with
  | .astWithSource _ inner => visitExpressionCore position inner path
  | other => visitExpressionCore position other path
termination_by 2 * sizeOf e + 1

/-- The guarded body of `ExpressionVisitor.visit` after unwrapping: push the
node when its span contains the position and it is not the implicit
receiver, then visit its children. -/
def visitExpressionCore (position : Nat) (e : EAst) (path : List PathElem) : List PathElem :=
  let notImplicit : Bool :=
    match e with
    | .implicitReceiver _ => false
    | _ => true
  if isWithin position (.absolute e.sourceSpan) && notImplicit then
    let path2 := path ++ [.east e]
    match e with
    | .implicitReceiver _ => path2
    | .astWithSource _ inner => visitExpression position inner path2
    | .node _ children => visitExpressionAll position children path2
  else path
termination_by 2 * sizeOf e

/-- Child traversal of `RecursiveAstVisitor`, in order. -/
def visitExpressionAll (position : Nat) (es : List EAst) (path : List PathElem) : List PathElem :=
  match es with
  | [] => path
  | e :: rest => visitExpressionAll position rest (visitExpression position e path)
termination_by 2 * sizeOf es

end

/-- `findNodeAtPosition`: run the visitor over the root nodes, take the last
path entry, and suppress a key/value-shaped candidate whose key span fails
to contain the position while a present value span also fails to contain
it. -/
def findNodeAtPosition (ast : List TNode) (position : Nat) : Option PathElem :=
  let path := visitAll position ast []
  match path.getLast? with
  | none => none
  | some candidate =>
    match candidate with
    | .tnode n =>
      match n.keySpan with
      | some keySpan =>
        if !(isWithin position (.parse keySpan)) &&
            (match n.valueSpan with
             | some valueSpan => !(isWithin position (.parse valueSpan))
             | none => false) then
          none
        else some candidate
      | none => some candidate
    | .east _ => some candidate

/-! ### Claim theorems for spans and containment -/

/-- C10: `isWithin` treats every span as a closed interval: containment
holds exactly between the inclusive bounds, so an offset equal to the start
offset or the end offset counts as contained, and a cursor sitting exactly
on either boundary of a root node's span resolves to that node. -/
theorem isWithin_inclusive_bounds :
    (∀ (p : Nat) (s : ParseSourceSpan),
      isWithin p (.parse s) = true ↔ (s.start.offset ≤ p ∧ p ≤ s.«end».offset)) ∧
    (∀ (p : Nat) (s : AbsoluteSourceSpan),
      isWithin p (.absolute s) = true ↔ (s.start ≤ p ∧ p ≤ s.«end»)) ∧
    (∀ s : ParseSourceSpan, s.start.offset ≤ s.«end».offset →
      isWithin s.start.offset (.parse s) = true ∧
      isWithin s.«end».offset (.parse s) = true) ∧
    (∀ (v : String) (s : ParseSourceSpan), s.start.offset ≤ s.«end».offset →
      findNodeAtPosition [.text v s] s.start.offset = some (.tnode (.text v s)) ∧
      findNodeAtPosition [.text v s] s.«end».offset = some (.tnode (.text v s))) := by
  refine ⟨by intro p s; simp [isWithin], by intro p s; simp [isWithin], ?_, ?_⟩
  · intro s h
    constructor <;> simp [isWithin] <;> omega
  · intro v s h
    constructor <;>
      simp [findNodeAtPosition, visitAll, visit, visitNode, getSpanIncludingEndTag,
        toAbsolute, TNode.sourceSpan, TNode.endSourceSpan, isWithin, TNode.keySpan, h]

/-- Witness for C10 at the concrete span `[3,7]`: both boundary offsets are
contained and the end-boundary cursor resolves to the text node. -/
theorem isWithin_inclusive_bounds_witness :
    isWithin 3 (.parse ⟨⟨3⟩, ⟨7⟩⟩) = true ∧ isWithin 7 (.parse ⟨⟨3⟩, ⟨7⟩⟩) = true ∧
    findNodeAtPosition [.text "ab" ⟨⟨3⟩, ⟨7⟩⟩] 7 = some (.tnode (.text "ab" ⟨⟨3⟩, ⟨7⟩⟩)) := by
  obtain ⟨h1, h2⟩ := isWithin_inclusive_bounds.2.2.1 ⟨⟨3⟩, ⟨7⟩⟩ (by decide)
  obtain ⟨_, h3⟩ := isWithin_inclusive_bounds.2.2.2 "ab" ⟨⟨3⟩, ⟨7⟩⟩ (by decide)
  exact ⟨h1, h2, h3⟩

/-- C6: for an element or template carrying an end-tag span, the span the
resolver tests containment against keeps the node's start offset and extends
to the end of the closing tag, so every offset inside the closing tag is
within it; for every node without an end-tag span the node's own source span
is used unchanged. -/
theorem getSpanIncludingEndTag_spec :
    ∀ n : TNode,
      (∀ es, n.endSourceSpan = some es →
        getSpanIncludingEndTag n = ⟨n.sourceSpan.start.offset, es.«end».offset⟩ ∧
        ∀ p, n.sourceSpan.start.offset ≤ es.start.offset →
          es.start.offset ≤ p → p ≤ es.«end».offset →
          isWithin p (.absolute (getSpanIncludingEndTag n)) = true) ∧
      (n.endSourceSpan = none → getSpanIncludingEndTag n = toAbsolute n.sourceSpan) := by
  intro n
  constructor
  · intro es hes
    constructor
    · simp [getSpanIncludingEndTag, hes, toAbsolute]
    · intro p h1 h2 h3
      simp [getSpanIncludingEndTag, hes, toAbsolute, isWithin]
      omega
  · intro hes
    simp [getSpanIncludingEndTag, hes]

/-- Witness for C6: a concrete element whose opening tag ends at 5 and whose
closing tag spans `[10,16]` is tested against `[0,16]`, so offset 12 (inside
the closing tag) is contained; a text node keeps its own span. -/
theorem getSpanIncludingEndTag_spec_witness :
    getSpanIncludingEndTag
        (TNode.element "div" [] [] [] [] [] ⟨⟨0⟩, ⟨5⟩⟩ (some ⟨⟨10⟩, ⟨16⟩⟩)) = ⟨0, 16⟩ ∧
    isWithin 12 (.absolute (getSpanIncludingEndTag
        (TNode.element "div" [] [] [] [] [] ⟨⟨0⟩, ⟨5⟩⟩ (some ⟨⟨10⟩, ⟨16⟩⟩)))) = true ∧
    getSpanIncludingEndTag (TNode.text "t" ⟨⟨2⟩, ⟨4⟩⟩) = ⟨2, 4⟩ := by
  obtain ⟨hel, hcontain⟩ :=
    (getSpanIncludingEndTag_spec
      (TNode.element "div" [] [] [] [] [] ⟨⟨0⟩, ⟨5⟩⟩ (some ⟨⟨10⟩, ⟨16⟩⟩))).1 ⟨⟨10⟩, ⟨16⟩⟩ rfl
  exact ⟨hel, hcontain 12 (by decide) (by decide) (by decide),
    (getSpanIncludingEndTag_spec (TNode.text "t" ⟨⟨2⟩, ⟨4⟩⟩)).2 rfl⟩

/-- C1 (amended): the resolver skips a candidate — leaving the path
unchanged, not descending — exactly when the candidate's span contains the
offset but is strictly larger than the span of the deepest match so far.
A candidate whose span is equal to (or smaller than) the deepest match's is
entered and pushed, so among equal-span siblings the last one visited, not
the first, ends up as the deepest match. -/
theorem visit_skips_only_strictly_larger :
    (∀ (position : Nat) (node : TNode) (path : List PathElem) (last : PathElem),
      path.getLast? = some last →
      isWithin position (.absolute (getSpanIncludingEndTag node)) = true →
      spanLength (getSpanIncludingEndTag node) > spanLength last.lastSpan →
      visit position node path = path) ∧
    (∀ (position : Nat) (v : String) (s : ParseSourceSpan) (path : List PathElem)
        (last : PathElem),
      path.getLast? = some last →
      isWithin position (.absolute (toAbsolute s)) = true →
      spanLength (toAbsolute s) ≤ spanLength last.lastSpan →
      visit position (.text v s) path = path ++ [.tnode (.text v s)]) := by
  constructor
  · intro position node path last hlast hwithin hgt
    rw [visit]
    simp only [hwithin, hlast, if_true]
    simp [hgt]
  · intro position v s path last hlast hwithin hle
    have hspan : getSpanIncludingEndTag (.text v s) = toAbsolute s := rfl
    rw [visit]
    simp only [hspan, hwithin, hlast, if_true]
    simp [visitNode, not_lt.mpr hle]

/-- Witness for C1 (amended): a strictly larger sibling (span `[0,9]` versus
deepest match `[0,2]`) is skipped; an equal-span sibling is entered and
pushed. -/
theorem visit_skips_only_strictly_larger_witness :
    visit 1 (TNode.text "c" ⟨⟨0⟩, ⟨9⟩⟩) [.tnode (.text "a" ⟨⟨0⟩, ⟨2⟩⟩)] =
      [.tnode (.text "a" ⟨⟨0⟩, ⟨2⟩⟩)] ∧
    visit 1 (TNode.text "b" ⟨⟨0⟩, ⟨2⟩⟩) [.tnode (.text "a" ⟨⟨0⟩, ⟨2⟩⟩)] =
      [.tnode (.text "a" ⟨⟨0⟩, ⟨2⟩⟩), .tnode (.text "b" ⟨⟨0⟩, ⟨2⟩⟩)] :=
  ⟨visit_skips_only_strictly_larger.1 1 (.text "c" ⟨⟨0⟩, ⟨9⟩⟩) _ _ rfl (by decide) (by decide),
   visit_skips_only_strictly_larger.2 1 "b" ⟨⟨0⟩, ⟨2⟩⟩ _ _ rfl (by decide) (by decide)⟩

/-- Counterexample to C1 as stated: at offset 1, the second of two sibling
text nodes with identical spans `[0,2]` contains the offset and its span is
not strictly smaller than the deepest match's span (they are equal), yet the
resolver does descend into it — the path grows and the second sibling
becomes the resolved node. -/
theorem visit_descends_into_equal_span_sibling :
    isWithin 1 (.absolute (getSpanIncludingEndTag (TNode.text "b" ⟨⟨0⟩, ⟨2⟩⟩))) = true ∧
    spanLength (getSpanIncludingEndTag (TNode.text "b" ⟨⟨0⟩, ⟨2⟩⟩)) =
      spanLength (PathElem.lastSpan (.tnode (.text "a" ⟨⟨0⟩, ⟨2⟩⟩))) ∧
    visit 1 (TNode.text "b" ⟨⟨0⟩, ⟨2⟩⟩) [.tnode (.text "a" ⟨⟨0⟩, ⟨2⟩⟩)] =
      [.tnode (.text "a" ⟨⟨0⟩, ⟨2⟩⟩), .tnode (.text "b" ⟨⟨0⟩, ⟨2⟩⟩)] ∧
    findNodeAtPosition [.text "a" ⟨⟨0⟩, ⟨2⟩⟩, .text "b" ⟨⟨0⟩, ⟨2⟩⟩] 1 =
      some (.tnode (.text "b" ⟨⟨0⟩, ⟨2⟩⟩)) := by
  refine ⟨by decide, by decide, ?_, ?_⟩ <;>
    simp [findNodeAtPosition, visitAll, visit, visitNode, getSpanIncludingEndTag,
      toAbsolute, TNode.sourceSpan, TNode.endSourceSpan, isWithin, spanLength,
      PathElem.lastSpan, TNode.keySpan]

/-! ### Path-extension lemmas for the traversal

The visitor only ever appends to the path, except that `visitBoundEvent`
pops the just-pushed event of a two-way binding; these lemmas capture that
shape. -/

mutual

theorem visit_extends (position : Nat) (node : TNode) (path : List PathElem) :
    ∃ s, visit position node path = path ++ s := by
  rw [visit]
  by_cases hw : isWithin position (.absolute (getSpanIncludingEndTag node)) = true
  · cases hlast : path.getLast? with
    | none =>
      simp only [hw, hlast, if_true]
      rw [if_neg (by simp)]
      rcases visitNode_extends position node (path ++ [.tnode node]) with ⟨s, hs⟩ |
        ⟨nm, handler, ss, ks, vs, hn, htw, hres⟩
      · exact ⟨.tnode node :: s, by rw [hs]; simp⟩
      · exact ⟨[], by rw [hres]; simp⟩
    | some last =>
      by_cases hgt : spanLength (getSpanIncludingEndTag node) > spanLength last.lastSpan
      · exact ⟨[], by simp [hw, hlast, hgt]⟩
      · simp only [hw, hlast, if_true, decide_eq_true_eq]
        rw [if_neg (by simpa using hgt)]
        rcases visitNode_extends position node (path ++ [.tnode node]) with ⟨s, hs⟩ |
          ⟨nm, handler, ss, ks, vs, hn, htw, hres⟩
        · exact ⟨.tnode node :: s, by rw [hs]; simp⟩
        · exact ⟨[], by rw [hres]; simp⟩
  · have hw' : isWithin position (.absolute (getSpanIncludingEndTag node)) = false := by
      simpa using hw
    exact ⟨[], by simp [hw']⟩
termination_by 2 * sizeOf node + 1

theorem visitNode_extends (position : Nat) (node : TNode) (q : List PathElem) :
    (∃ s, visitNode position node q = q ++ s) ∨
    (∃ nm handler ss ks vs, node = .boundEvent nm handler ss ks vs ∧
      isTwoWayBindingEvent nm q = true ∧ visitNode position node q = q.dropLast) := by
  cases node with
  | element nm attrs ins outs refs ch ss es =>
    left
    obtain ⟨s1, h1⟩ := visitAll_extends position attrs q
    obtain ⟨s2, h2⟩ := visitAll_extends position ins (q ++ s1)
    obtain ⟨s3, h3⟩ := visitAll_extends position outs (q ++ s1 ++ s2)
    obtain ⟨s4, h4⟩ := visitAll_extends position refs (q ++ s1 ++ s2 ++ s3)
    obtain ⟨s5, h5⟩ := visitAll_extends position ch (q ++ s1 ++ s2 ++ s3 ++ s4)
    refine ⟨s1 ++ s2 ++ s3 ++ s4 ++ s5, ?_⟩
    simp only [visitNode]
    rw [h1, h2, h3, h4, h5]
    simp [List.append_assoc]
  | template nm attrs ins outs tattrs refs vars ch ss es =>
    left
    obtain ⟨s1, h1⟩ := visitAll_extends position attrs q
    obtain ⟨s2, h2⟩ := visitAll_extends position ins (q ++ s1)
    obtain ⟨s3, h3⟩ := visitAll_extends position outs (q ++ s1 ++ s2)
    obtain ⟨s4, h4⟩ := visitAll_extends position tattrs (q ++ s1 ++ s2 ++ s3)
    obtain ⟨s5, h5⟩ := visitAll_extends position refs (q ++ s1 ++ s2 ++ s3 ++ s4)
    obtain ⟨s6, h6⟩ := visitAll_extends position vars (q ++ s1 ++ s2 ++ s3 ++ s4 ++ s5)
    obtain ⟨s7, h7⟩ := visitAll_extends position ch (q ++ s1 ++ s2 ++ s3 ++ s4 ++ s5 ++ s6)
    refine ⟨s1 ++ s2 ++ s3 ++ s4 ++ s5 ++ s6 ++ s7, ?_⟩
    simp only [visitNode]
    rw [h1, h2, h3, h4, h5, h6, h7]
    simp [List.append_assoc]
  | content attrs ss =>
    left
    obtain ⟨s1, h1⟩ := visitAll_extends position attrs q
    exact ⟨s1, by simp only [visitNode]; exact h1⟩
  | «variable» nm v ss ks vs => exact .inl ⟨[], by simp [visitNode]⟩
  | reference nm v ss ks vs => exact .inl ⟨[], by simp [visitNode]⟩
  | textAttribute nm v ss ks vs => exact .inl ⟨[], by simp [visitNode]⟩
  | boundAttribute nm value ss ks vs =>
    left
    obtain ⟨s, hs⟩ := visitExpression_extends position value q
    exact ⟨s, by simp only [visitNode]; exact hs⟩
  | boundEvent nm handler ss ks vs =>
    by_cases htw : isTwoWayBindingEvent nm q = true
    · exact .inr ⟨nm, handler, ss, ks, vs, rfl, htw, by simp [visitNode, htw]⟩
    · left
      obtain ⟨s, hs⟩ := visitExpression_extends position handler q
      refine ⟨s, ?_⟩
      simp only [visitNode]
      rw [if_neg (by simpa using htw)]
      exact hs
  | text v ss => exact .inl ⟨[], by simp [visitNode]⟩
  | boundText value ss =>
    left
    obtain ⟨s, hs⟩ := visitExpression_extends position value q
    exact ⟨s, by simp only [visitNode]; exact hs⟩
  | icu vars placeholders ss =>
    left
    obtain ⟨s1, h1⟩ := visitAll_extends position vars q
    obtain ⟨s2, h2⟩ := visitAll_extends position placeholders (q ++ s1)
    refine ⟨s1 ++ s2, ?_⟩
    simp only [visitNode]
    rw [h1, h2]
    simp [List.append_assoc]
termination_by 2 * sizeOf node

theorem visitAll_extends (position : Nat) (nodes : List TNode) (path : List PathElem) :
    ∃ s, visitAll position nodes path = path ++ s := by
  cases nodes with
  | nil => exact ⟨[], by simp [visitAll]⟩
  | cons n rest =>
    obtain ⟨s1, h1⟩ := visit_extends position n path
    obtain ⟨s2, h2⟩ := visitAll_extends position rest (path ++ s1)
    refine ⟨s1 ++ s2, ?_⟩
    simp only [visitAll]
    rw [h1, h2]
    simp [List.append_assoc]
termination_by 2 * sizeOf nodes

theorem visitExpression_extends (position : Nat) (e : EAst) (path : List PathElem) :
    ∃ s, visitExpression position e path = path ++ s := by
  cases e with
  | astWithSource sp inner =>
    obtain ⟨s, hs⟩ := visitExpressionCore_extends position inner path
    exact ⟨s, by simp only [visitExpression]; exact hs⟩
  | implicitReceiver sp =>
    obtain ⟨s, hs⟩ := visitExpressionCore_extends position (.implicitReceiver sp) path
    exact ⟨s, by simp only [visitExpression]; exact hs⟩
  | node sp ch =>
    obtain ⟨s, hs⟩ := visitExpressionCore_extends position (.node sp ch) path
    exact ⟨s, by simp only [visitExpression]; exact hs⟩
termination_by 2 * sizeOf e + 1

theorem visitExpressionCore_extends (position : Nat) (e : EAst) (path : List PathElem) :
    ∃ s, visitExpressionCore position e path = path ++ s := by
  cases e with
  | implicitReceiver sp => exact ⟨[], by simp [visitExpressionCore]⟩
  | astWithSource sp inner =>
    by_cases hw : isWithin position (.absolute sp) = true
    · obtain ⟨s, hs⟩ :=
        visitExpression_extends position inner (path ++ [.east (.astWithSource sp inner)])
      refine ⟨.east (.astWithSource sp inner) :: s, ?_⟩
      simp only [visitExpressionCore, EAst.sourceSpan, hw]
      simp only [Bool.and_true, if_true]
      rw [hs]
      simp
    · have hw' : isWithin position (.absolute sp) = false := by simpa using hw
      exact ⟨[], by simp [visitExpressionCore, EAst.sourceSpan, hw']⟩
  | node sp ch =>
    by_cases hw : isWithin position (.absolute sp) = true
    · obtain ⟨s, hs⟩ := visitExpressionAll_extends position ch (path ++ [.east (.node sp ch)])
      refine ⟨.east (.node sp ch) :: s, ?_⟩
      simp only [visitExpressionCore, EAst.sourceSpan, hw]
      simp only [Bool.and_true, if_true]
      rw [hs]
      simp
    · have hw' : isWithin position (.absolute sp) = false := by simpa using hw
      exact ⟨[], by simp [visitExpressionCore, EAst.sourceSpan, hw']⟩
termination_by 2 * sizeOf e

theorem visitExpressionAll_extends (position : Nat) (es : List EAst) (path : List PathElem) :
    ∃ s, visitExpressionAll position es path = path ++ s := by
  cases es with
  | nil => exact ⟨[], by simp [visitExpressionAll]⟩
  | cons e rest =>
    obtain ⟨s1, h1⟩ := visitExpression_extends position e path
    obtain ⟨s2, h2⟩ := visitExpressionAll_extends position rest (path ++ s1)
    refine ⟨s1 ++ s2, ?_⟩
    simp only [visitExpressionAll]
    rw [h1, h2]
    simp [List.append_assoc]
termination_by 2 * sizeOf es

end

/-- A node whose span (including any end tag) does not contain the position
is not entered: the path is unchanged. -/
theorem visit_not_within (position : Nat) (node : TNode) (path : List PathElem)
    (h : isWithin position (.absolute (getSpanIncludingEndTag node)) = false) :
    visit position node path = path := by
  rw [visit]
  simp [h]

/-- On an empty path, a node whose span contains the position is entered and
the path becomes nonempty. -/
theorem visit_pushes_on_empty (position : Nat) (node : TNode)
    (h : isWithin position (.absolute (getSpanIncludingEndTag node)) = true) :
    visit position node [] ≠ [] := by
  rw [visit]
  simp only [h, List.getLast?_nil, if_true, List.nil_append]
  rw [if_neg (by simp)]
  rcases visitNode_extends position node [.tnode node] with ⟨s, hs⟩ |
    ⟨nm, handler, ss, ks, vs, hn, htw, hres⟩
  · rw [hs]; simp
  · subst hn
    simp [isTwoWayBindingEvent] at htw

/-- Visiting more nodes never empties a nonempty path. -/
theorem visitAll_nonempty_stable (position : Nat) (nodes : List TNode)
    (path : List PathElem) (h : path ≠ []) :
    visitAll position nodes path ≠ [] := by
  obtain ⟨s, hs⟩ := visitAll_extends position nodes path
  rw [hs]
  simp [h]

/-- The traversal ends with an empty path exactly when no root node's span
(including any end tag) contains the position. -/
theorem visitAll_empty_iff (position : Nat) (nodes : List TNode) :
    visitAll position nodes [] = [] ↔
      ∀ n ∈ nodes, isWithin position (.absolute (getSpanIncludingEndTag n)) = false := by
  induction nodes with
  | nil => simp [visitAll]
  | cons n rest ih =>
    simp only [visitAll]
    constructor
    · intro h
      by_cases hw : isWithin position (.absolute (getSpanIncludingEndTag n)) = true
      · exact absurd h (visitAll_nonempty_stable position rest _ (visit_pushes_on_empty position n hw))
      · have hw' : isWithin position (.absolute (getSpanIncludingEndTag n)) = false := by
          simpa using hw
        rw [visit_not_within position n [] hw'] at h
        intro m hm
        rcases List.mem_cons.mp hm with hm | hm
        · rw [hm]; exact hw'
        · exact (ih.mp h) m hm
    · intro h
      rw [visit_not_within position n [] (h n (by simp))]
      exact ih.mpr fun m hm => h m (by simp [hm])

/-- The guard under which the traversal pushes an entry onto the path: its
span (for template nodes, including any end tag) contains the position. -/
def pushGuard (position : Nat) : PathElem → Bool
  | .tnode n => isWithin position (.absolute (getSpanIncludingEndTag n))
  | .east e => isWithin position (.absolute e.sourceSpan)

mutual

theorem visit_mem_guard (position : Nat) (node : TNode) (path : List PathElem) :
    ∀ x ∈ visit position node path, x ∈ path ∨ pushGuard position x = true := by
  intro x hx
  rw [visit] at hx
  by_cases hw : isWithin position (.absolute (getSpanIncludingEndTag node)) = true
  · simp only [hw, if_true] at hx
    by_cases hskip : (match path.getLast? with
      | some last => decide (spanLength (getSpanIncludingEndTag node) > spanLength last.lastSpan)
      | none => false) = true
    · rw [if_pos hskip] at hx
      exact .inl hx
    · rw [if_neg hskip] at hx
      rcases visitNode_mem_guard position node (path ++ [.tnode node]) x hx with hmem | hg
      · rcases List.mem_append.mp hmem with hmem | hmem
        · exact .inl hmem
        · right
          rw [List.mem_singleton.mp hmem]
          exact hw
      · exact .inr hg
  · have hw' : isWithin position (.absolute (getSpanIncludingEndTag node)) = false := by
      simpa using hw
    rw [if_neg (by simp [hw'])] at hx
    exact .inl hx
termination_by 2 * sizeOf node + 1

theorem visitNode_mem_guard (position : Nat) (node : TNode) (q : List PathElem) :
    ∀ x ∈ visitNode position node q, x ∈ q ∨ pushGuard position x = true := by
  cases node with
  | element nm attrs ins outs refs ch ss es =>
    intro x hx
    simp only [visitNode] at hx
    rcases visitAll_mem_guard position ch _ x hx with hx | hg
    rotate_left
    · exact .inr hg
    rcases visitAll_mem_guard position refs _ x hx with hx | hg
    rotate_left
    · exact .inr hg
    rcases visitAll_mem_guard position outs _ x hx with hx | hg
    rotate_left
    · exact .inr hg
    rcases visitAll_mem_guard position ins _ x hx with hx | hg
    rotate_left
    · exact .inr hg
    rcases visitAll_mem_guard position attrs _ x hx with hx | hg
    · exact .inl hx
    · exact .inr hg
  | template nm attrs ins outs tattrs refs vars ch ss es =>
    intro x hx
    simp only [visitNode] at hx
    rcases visitAll_mem_guard position ch _ x hx with hx | hg
    rotate_left
    · exact .inr hg
    rcases visitAll_mem_guard position vars _ x hx with hx | hg
    rotate_left
    · exact .inr hg
    rcases visitAll_mem_guard position refs _ x hx with hx | hg
    rotate_left
    · exact .inr hg
    rcases visitAll_mem_guard position tattrs _ x hx with hx | hg
    rotate_left
    · exact .inr hg
    rcases visitAll_mem_guard position outs _ x hx with hx | hg
    rotate_left
    · exact .inr hg
    rcases visitAll_mem_guard position ins _ x hx with hx | hg
    rotate_left
    · exact .inr hg
    rcases visitAll_mem_guard position attrs _ x hx with hx | hg
    · exact .inl hx
    · exact .inr hg
  | content attrs ss =>
    intro x hx
    simp only [visitNode] at hx
    exact visitAll_mem_guard position attrs q x hx
  | «variable» nm v ss ks vs => intro x hx; simp only [visitNode] at hx; exact .inl hx
  | reference nm v ss ks vs => intro x hx; simp only [visitNode] at hx; exact .inl hx
  | textAttribute nm v ss ks vs => intro x hx; simp only [visitNode] at hx; exact .inl hx
  | boundAttribute nm value ss ks vs =>
    intro x hx
    simp only [visitNode] at hx
    exact visitExpression_mem_guard position value q x hx
  | boundEvent nm handler ss ks vs =>
    intro x hx
    simp only [visitNode] at hx
    by_cases htw : isTwoWayBindingEvent nm q = true
    · rw [if_pos htw] at hx
      exact .inl (List.mem_of_mem_dropLast hx)
    · rw [if_neg htw] at hx
      exact visitExpression_mem_guard position handler q x hx
  | text v ss => intro x hx; simp only [visitNode] at hx; exact .inl hx
  | boundText value ss =>
    intro x hx
    simp only [visitNode] at hx
    exact visitExpression_mem_guard position value q x hx
  | icu vars placeholders ss =>
    intro x hx
    simp only [visitNode] at hx
    rcases visitAll_mem_guard position placeholders _ x hx with hx | hg
    rotate_left
    · exact .inr hg
    rcases visitAll_mem_guard position vars _ x hx with hx | hg
    · exact .inl hx
    · exact .inr hg
termination_by 2 * sizeOf node

theorem visitAll_mem_guard (position : Nat) (nodes : List TNode) (path : List PathElem) :
    ∀ x ∈ visitAll position nodes path, x ∈ path ∨ pushGuard position x = true := by
  cases nodes with
  | nil => intro x hx; simp only [visitAll] at hx; exact .inl hx
  | cons n rest =>
    intro x hx
    simp only [visitAll] at hx
    rcases visitAll_mem_guard position rest _ x hx with hx | hg
    · exact visit_mem_guard position n path x hx
    · exact .inr hg
termination_by 2 * sizeOf nodes

theorem visitExpression_mem_guard (position : Nat) (e : EAst) (path : List PathElem) :
    ∀ x ∈ visitExpression position e path, x ∈ path ∨ pushGuard position x = true := by
  cases e with
  | astWithSource sp inner =>
    intro x hx
    simp only [visitExpression] at hx
    exact visitExpressionCore_mem_guard position inner path x hx
  | implicitReceiver sp =>
    intro x hx
    simp only [visitExpression] at hx
    exact visitExpressionCore_mem_guard position (.implicitReceiver sp) path x hx
  | node sp ch =>
    intro x hx
    simp only [visitExpression] at hx
    exact visitExpressionCore_mem_guard position (.node sp ch) path x hx
termination_by 2 * sizeOf e + 1

theorem visitExpressionCore_mem_guard (position : Nat) (e : EAst) (path : List PathElem) :
    ∀ x ∈ visitExpressionCore position e path, x ∈ path ∨ pushGuard position x = true := by
  cases e with
  | implicitReceiver sp =>
    intro x hx
    simp only [visitExpressionCore, Bool.and_false, if_false] at hx
    exact .inl hx
  | astWithSource sp inner =>
    intro x hx
    by_cases hw : isWithin position (.absolute sp) = true
    · simp only [visitExpressionCore, EAst.sourceSpan, hw, Bool.and_true, if_true] at hx
      rcases visitExpression_mem_guard position inner _ x hx with hx | hg
      · rcases List.mem_append.mp hx with hx | hx
        · exact .inl hx
        · right
          rw [List.mem_singleton.mp hx]
          simpa [pushGuard, EAst.sourceSpan] using hw
      · exact .inr hg
    · have hw' : isWithin position (.absolute sp) = false := by simpa using hw
      simp only [visitExpressionCore, EAst.sourceSpan, hw', Bool.false_and, if_false] at hx
      exact .inl hx
  | node sp ch =>
    intro x hx
    by_cases hw : isWithin position (.absolute sp) = true
    · simp only [visitExpressionCore, EAst.sourceSpan, hw, Bool.and_true, if_true] at hx
      rcases visitExpressionAll_mem_guard position ch _ x hx with hx | hg
      · rcases List.mem_append.mp hx with hx | hx
        · exact .inl hx
        · right
          rw [List.mem_singleton.mp hx]
          simpa [pushGuard, EAst.sourceSpan] using hw
      · exact .inr hg
    · have hw' : isWithin position (.absolute sp) = false := by simpa using hw
      simp only [visitExpressionCore, EAst.sourceSpan, hw', Bool.false_and, if_false] at hx
      exact .inl hx
termination_by 2 * sizeOf e

theorem visitExpressionAll_mem_guard (position : Nat) (es : List EAst) (path : List PathElem) :
    ∀ x ∈ visitExpressionAll position es path, x ∈ path ∨ pushGuard position x = true := by
  cases es with
  | nil => intro x hx; simp only [visitExpressionAll] at hx; exact .inl hx
  | cons e rest =>
    intro x hx
    simp only [visitExpressionAll] at hx
    rcases visitExpressionAll_mem_guard position rest _ x hx with hx | hg
    · exact visitExpression_mem_guard position e path x hx
    · exact .inr hg
termination_by 2 * sizeOf es

end

/-- C7: `findNodeAtPosition` is a total function (it returns an optional
node, never a thrown error) and it returns no match in exactly two
situations: the offset lies outside every root node's span as the resolver
measures it (including any end tag), or the located candidate is a
key/value-shaped node — with both a key sub-span and a value sub-span —
whose overall span contains the offset while its key sub-span and its value
sub-span both fail to contain it. -/
theorem findNodeAtPosition_none_iff :
    ∀ (ast : List TNode) (position : Nat),
      findNodeAtPosition ast position = none ↔
        ((∀ n ∈ ast, isWithin position (.absolute (getSpanIncludingEndTag n)) = false) ∨
         (∃ n ks vs,
            (visitAll position ast []).getLast? = some (.tnode n) ∧
            n.keySpan = some ks ∧ n.valueSpan = some vs ∧
            isWithin position (.absolute (getSpanIncludingEndTag n)) = true ∧
            isWithin position (.parse ks) = false ∧
            isWithin position (.parse vs) = false)) := by
  intro ast position
  cases hp : (visitAll position ast []).getLast? with
  | none =>
    have hempty : visitAll position ast [] = [] := List.getLast?_eq_none_iff.mp hp
    constructor
    · intro _
      exact .inl ((visitAll_empty_iff position ast).mp hempty)
    · intro _
      simp only [findNodeAtPosition, hp]
  | some candidate =>
    have hne : visitAll position ast [] ≠ [] := by
      intro hc
      rw [hc] at hp
      simp at hp
    have hnotall :
        ¬ ∀ n ∈ ast, isWithin position (.absolute (getSpanIncludingEndTag n)) = false := by
      intro hall
      exact hne ((visitAll_empty_iff position ast).mpr hall)
    have hmem : candidate ∈ visitAll position ast [] := List.mem_of_mem_getLast? hp
    have hcg : pushGuard position candidate = true := by
      rcases visitAll_mem_guard position ast [] candidate hmem with h | h
      · simp at h
      · exact h
    cases candidate with
    | east e =>
      constructor
      · intro h
        simp only [findNodeAtPosition, hp] at h
        simp at h
      · rintro (hall | ⟨n, ks, vs, hlast, _⟩)
        · exact absurd hall hnotall
        · simp at hlast
    | tnode n =>
      cases hks : n.keySpan with
      | none =>
        constructor
        · intro h
          simp only [findNodeAtPosition, hp, hks] at h
          simp at h
        · rintro (hall | ⟨n', ks', vs', hlast, hks', _⟩)
          · exact absurd hall hnotall
          · simp only [Option.some.injEq, PathElem.tnode.injEq] at hlast
            subst hlast
            rw [hks] at hks'
            simp at hks'
      | some ks =>
        cases hvs : n.valueSpan with
        | none =>
          constructor
          · intro h
            simp only [findNodeAtPosition, hp, hks, hvs] at h
            simp at h
          · rintro (hall | ⟨n', ks', vs', hlast, hks', hvs', _⟩)
            · exact absurd hall hnotall
            · simp only [Option.some.injEq, PathElem.tnode.injEq] at hlast
              subst hlast
              rw [hvs] at hvs'
              simp at hvs'
        | some vs =>
          by_cases hwk : isWithin position (.parse ks) = true
          · constructor
            · intro h
              simp only [findNodeAtPosition, hp, hks, hvs, hwk] at h
              simp at h
            · rintro (hall | ⟨n', ks', vs', hlast, hks', hvs', hwn, hwk', hwv'⟩)
              · exact absurd hall hnotall
              · simp only [Option.some.injEq, PathElem.tnode.injEq] at hlast
                subst hlast
                rw [hks] at hks'
                injection hks' with hks'
                subst hks'
                rw [hwk] at hwk'
                simp at hwk'
          · by_cases hwv : isWithin position (.parse vs) = true
            · constructor
              · intro h
                simp only [findNodeAtPosition, hp, hks, hvs, hwv] at h
                simp at h
              · rintro (hall | ⟨n', ks', vs', hlast, hks', hvs', hwn, hwk', hwv'⟩)
                · exact absurd hall hnotall
                · simp only [Option.some.injEq, PathElem.tnode.injEq] at hlast
                  subst hlast
                  rw [hvs] at hvs'
                  injection hvs' with hvs'
                  subst hvs'
                  rw [hwv] at hwv'
                  simp at hwv'
            · have hwk' : isWithin position (.parse ks) = false := by simpa using hwk
              have hwv' : isWithin position (.parse vs) = false := by simpa using hwv
              constructor
              · intro _
                refine .inr ⟨n, ks, vs, rfl, hks, hvs, ?_, hwk', hwv'⟩
                simpa [pushGuard] using hcg
              · intro _
                simp only [findNodeAtPosition, hp, hks, hvs, hwk', hwv']
                simp

/-! ## The i18n translation-message serializer -/

/-- A structured parse error; only its presence matters to the claims, so it
carries just its message. -/
structure ParseError where
  message : String
deriving DecidableEq, Repr

/-- The record returned by `serializeTranslationMessage`: an optional
translation plus the two independent error lists. -/
structure SerializeTranslationResult (Translation : Type) where
  translation : Option Translation
  parseErrors : List ParseError
  serializeErrors : List ParseError

/-- `serializeTranslationMessage(element, config)`. Its collaborators are
not among the sources and are abstracted as parameters: `parseInnerRange`
(modelled from the spec: building the AST yields root nodes plus a list of
parse errors) and `serialize` (modelled from the spec: rendering an
already-parsed AST either produces a translation or throws, captured as
`Except`; it closes over the `config` with which the source constructs the
`MessageSerializer` and `TargetMessageRenderer`). The body mirrors the
source's `try`/`catch`: on success the parse errors ride along with an empty
serialize-error list; a thrown error is caught and returned as the sole
serialize error with a null translation, the parse errors still included. -/
def serializeTranslationMessage {Element Node Translation : Type}
    (parseInnerRange : Element → List Node × List ParseError)
    (serialize : List Node → Except ParseError Translation)
    (element : Element) : SerializeTranslationResult Translation :=
  let parsed := parseInnerRange element
  match serialize parsed.1 with
  | .ok translation => ⟨some translation, parsed.2, []⟩
  | .error e => ⟨none, parsed.2, [e]⟩

/-- C8: `serializeTranslationMessage` always returns the two error lists
independently — the parse errors are exactly those produced while building
the AST — and for every input either serialization succeeded, with a
non-null translation and an empty serialize-error list, or the thrown error
is caught and returned as the sole serialize error with a null
translation, the parse errors still returned. -/
theorem serializeTranslationMessage_error_contract :
    ∀ (Element Node Translation : Type)
      (parseInnerRange : Element → List Node × List ParseError)
      (serialize : List Node → Except ParseError Translation)
      (element : Element),
      (serializeTranslationMessage parseInnerRange serialize element).parseErrors =
        (parseInnerRange element).2 ∧
      ((∃ t, serialize (parseInnerRange element).1 = .ok t ∧
          (serializeTranslationMessage parseInnerRange serialize element).translation = some t ∧
          (serializeTranslationMessage parseInnerRange serialize element).serializeErrors = []) ∨
       (∃ e, serialize (parseInnerRange element).1 = .error e ∧
          (serializeTranslationMessage parseInnerRange serialize element).translation = none ∧
          (serializeTranslationMessage parseInnerRange serialize element).serializeErrors = [e])) := by
  intro El Nd Tr pir ser el
  cases hs : ser (pir el).1 with
  | ok t =>
    refine ⟨?_, .inl ⟨t, rfl, ?_, ?_⟩⟩ <;> simp [serializeTranslationMessage, hs]
  | error e =>
    refine ⟨?_, .inr ⟨e, rfl, ?_, ?_⟩⟩ <;> simp [serializeTranslationMessage, hs]

end AngularCompiler
